import Mathlib

/-!
Shallow embedding of the clockeroo command-line timer/stopwatch/alarm program
(src/main.rs) and verification of its specification's claims.

Conventions of the embedding:
* Rust `u64`/`u32` arithmetic is modelled on `Nat` with explicit `% 2^64`
  (resp. bounds checks) where the source can overflow; wrapping
  (release-profile) semantics are used for `+=`/`*`.
* Strings are modelled as `List Char`; `str::to_lowercase` is modelled by
  `Char.toLower` per character (they agree on ASCII, and every character on
  which they could differ is skipped by the parsers modelled here).
* `Instant`/wall-clock values are modelled as `Nat` (a monotone time axis);
  `chrono` naive date-times are modelled as nanosecond counts on that axis.
* Fallible Rust functions returning `Result` are modelled with `Option`.
* The interactive event loops are modelled as functions over a finite trace
  of polled ticks `(time, key)`; the side effects they perform (rendering,
  bell, notification, printing, file writes) are reified into result values.
-/

namespace Clockeroo

/-- Modulus of Rust's wrapping `u64` arithmetic: `2^64`. -/
def U64LIM : Nat := 18446744073709551616

/-- Modulus of Rust's `u32`: `2^32`. -/
def U32LIM : Nat := 4294967296

/-- Numeric value of a decimal digit character (`'0'` ↦ `0`, …, `'9'` ↦ `9`). -/
def charVal (c : Char) : Nat := c.toNat - 48

/-- Value of a big-endian run of decimal digit characters, as Rust's
`str::parse` computes it before its overflow check. -/
def digitsVal (ds : List Char) : Nat := ds.foldl (fun a c => a * 10 + charVal c) 0

/-- Model of `current_num.parse::<u64>()`: succeeds exactly on a nonempty
all-digit run whose value fits in a `u64`. -/
def parseU64 (ds : List Char) : Option Nat :=
  if ds ≠ [] ∧ ds.all Char.isDigit ∧ digitsVal ds < U64LIM then some (digitsVal ds) else none

/-- Model of `parts[i].parse::<u32>()`: succeeds exactly on a nonempty
all-digit run whose value fits in a `u32`. -/
def parseU32 (ds : List Char) : Option Nat :=
  if ds ≠ [] ∧ ds.all Char.isDigit ∧ digitsVal ds < U32LIM then some (digitsVal ds) else none

/-- One iteration of `parse_duration`'s character loop (src/main.rs:72-91).
State is `(total_seconds, current_num)`: an ASCII digit is pushed onto
`current_num`; each of `h`/`m`/`s` flushes a nonempty pending run into
`total_seconds` scaled by its unit factor (wrapping `u64` arithmetic); every
other character is skipped without touching the state. `none` propagates a
`parse::<u64>` failure (the `?` operator). -/
def pdStep : Option (Nat × List Char) → Char → Option (Nat × List Char)
  | none, _ => none
  | some (t, num), c =>
    if c.isDigit then some (t, num ++ [c])
    else if c = 'h' then
      if num ≠ [] then (parseU64 num).map fun v => ((t + v * 3600) % U64LIM, [])
      else some (t, num)
    else if c = 'm' then
      if num ≠ [] then (parseU64 num).map fun v => ((t + v * 60) % U64LIM, [])
      else some (t, num)
    else if c = 's' then
      if num ≠ [] then (parseU64 num).map fun v => ((t + v) % U64LIM, [])
      else some (t, num)
    else some (t, num)

/-- The value of `total_seconds` at src/main.rs:98, i.e. `parse_duration`
up to but not including the zero-total check: run the character loop over the
lowercased input, then flush a trailing unit-less run as seconds
(src/main.rs:94-96). `none` propagates a `parse::<u64>` failure. -/
def pdRaw (s : List Char) : Option Nat :=
  match (s.map Char.toLower).foldl pdStep (some (0, [])) with
  | none => none
  | some (t, num) =>
    if num ≠ [] then (parseU64 num).map fun v => (t + v) % U64LIM
    else some t

/-- Model of `parse_duration` (src/main.rs:67-103): the computed total in
seconds, rejected when it is zero (src/main.rs:98-100). `none` covers both the
explicit zero-total bailout and a propagated `parse::<u64>` failure. -/
def parse_duration (s : List Char) : Option Nat :=
  match pdRaw s with
  | none => none
  | some t => if t = 0 then none else some t

example : parse_duration "1h30m45s".toList = some 5445 := by decide
example : parse_duration "120s".toList = some 120 := by decide
example : parse_duration "90".toList = some 90 := by decide
example : parse_duration "0s".toList = none := by decide
example : parse_duration "5x".toList = some 5 := by decide
example : parse_duration "1x2s".toList = some 12 := by decide
example : parse_duration "2H".toList = some 7200 := by decide

/-- Character for a single decimal digit value. -/
def digitChar (d : Nat) : Char := Char.ofNat (48 + d)

/-- Fuel-indexed big-endian decimal rendering of a natural number. -/
def toDecAux : Nat → Nat → List Char
  | 0, _ => []
  | f + 1, n => if n = 0 then [] else toDecAux f (n / 10) ++ [digitChar (n % 10)]

/-- Decimal rendering of a natural number, most significant digit first. -/
def natChars (n : Nat) : List Char := if n = 0 then ['0'] else toDecAux (n + 1) n

/-- The three explicit duration units accepted by `parse_duration`. -/
inductive UnitK
  | h
  | m
  | s
deriving DecidableEq

/-- Seconds per unit: 3600 for `h`, 60 for `m`, 1 for `s` (src/main.rs:77-87). -/
def unitFactor : UnitK → Nat
  | .h => 3600
  | .m => 60
  | .s => 1

/-- The character denoting each unit. -/
def unitChar : UnitK → Char
  | .h => 'h'
  | .m => 'm'
  | .s => 's'

/-- Rendering of a duration string from components `value·unit`, optionally
followed by a trailing bare integer (interpreted as seconds). -/
def renderDur (comps : List (Nat × UnitK)) (bare : Option Nat) : List Char :=
  (comps.map fun p => natChars p.1 ++ [unitChar p.2]).flatten ++
    (match bare with
     | some n => natChars n
     | none => [])

/-- The intended total of a component list: each value times its unit factor,
plus the bare trailing integer as seconds. -/
def durTotal (comps : List (Nat × UnitK)) (bare : Option Nat) : Nat :=
  (comps.map fun p => p.1 * unitFactor p.2).sum +
    (match bare with
     | some n => n
     | none => 0)

theorem digitChar_facts : ∀ d, d < 10 →
    (digitChar d).toNat = 48 + d ∧ (digitChar d).isDigit = true ∧
      (digitChar d).toLower = digitChar d := by decide

theorem charVal_digitChar {d : Nat} (hd : d < 10) : charVal (digitChar d) = d := by
  have h := (digitChar_facts d hd).1
  simp [charVal, h]

theorem digitsVal_append (L : List Char) (c : Char) :
    digitsVal (L ++ [c]) = 10 * digitsVal L + charVal c := by
  simp [digitsVal, List.foldl_append, Nat.mul_comm]

theorem toDecAux_digitsVal : ∀ f n, n < f → digitsVal (toDecAux f n) = n := by
  intro f
  induction f with
  | zero => intro n hn; omega
  | succ f ih =>
    intro n hn
    by_cases h0 : n = 0
    · subst h0; simp [toDecAux, digitsVal]
    · have hdiv : n / 10 < f := by
        have hlt : n / 10 < n := Nat.div_lt_self (Nat.pos_of_ne_zero h0) (by omega)
        omega
      have hrec := ih (n / 10) hdiv
      have hmod : n % 10 < 10 := Nat.mod_lt _ (by omega)
      simp only [toDecAux, if_neg h0, digitsVal_append, hrec, charVal_digitChar hmod]
      omega

theorem toDecAux_mem : ∀ f n c, c ∈ toDecAux f n →
    c.isDigit = true ∧ c.toLower = c := by
  intro f
  induction f with
  | zero => intro n c hc; simp [toDecAux] at hc
  | succ f ih =>
    intro n c hc
    by_cases h0 : n = 0
    · subst h0; simp [toDecAux] at hc
    · simp only [toDecAux, if_neg h0, List.mem_append, List.mem_singleton] at hc
      rcases hc with hc | hc
      · exact ih _ _ hc
      · subst hc
        have hmod : n % 10 < 10 := Nat.mod_lt _ (by omega)
        exact ⟨(digitChar_facts _ hmod).2.1, (digitChar_facts _ hmod).2.2⟩

theorem natChars_digitsVal (n : Nat) : digitsVal (natChars n) = n := by
  by_cases h0 : n = 0
  · subst h0; decide
  · simp only [natChars, if_neg h0]
    exact toDecAux_digitsVal (n + 1) n (by omega)

theorem natChars_ne_nil (n : Nat) : natChars n ≠ [] := by
  by_cases h0 : n = 0
  · subst h0; decide
  · simp only [natChars, if_neg h0]
    cases hf : toDecAux (n + 1) n with
    | nil =>
      have := toDecAux_digitsVal (n + 1) n (by omega)
      rw [hf] at this
      simp [digitsVal] at this
      omega
    | cons a l => simp

theorem natChars_mem (n : Nat) : ∀ c ∈ natChars n, c.isDigit = true ∧ c.toLower = c := by
  by_cases h0 : n = 0
  · subst h0; decide
  · simp only [natChars, if_neg h0]
    intro c hc
    exact toDecAux_mem _ _ _ hc

theorem parseU64_natChars {n : Nat} (hn : n < U64LIM) : parseU64 (natChars n) = some n := by
  have hall : (natChars n).all Char.isDigit = true := by
    rw [List.all_eq_true]
    intro c hc
    exact (natChars_mem n c hc).1
  simp [parseU64, natChars_ne_nil n, hall, natChars_digitsVal n, hn]

theorem unitChar_isDigit (u : UnitK) : (unitChar u).isDigit = false := by
  cases u <;> decide

theorem unitChar_toLower (u : UnitK) : (unitChar u).toLower = unitChar u := by
  cases u <;> decide

theorem one_le_unitFactor (u : UnitK) : 1 ≤ unitFactor u := by
  cases u <;> decide

theorem foldl_pdStep_digits :
    ∀ (ds : List Char) (t : Nat) (num : List Char), (∀ c ∈ ds, c.isDigit = true) →
      List.foldl pdStep (some (t, num)) ds = some (t, num ++ ds) := by
  intro ds
  induction ds with
  | nil => intro t num _; simp
  | cons c l ih =>
    intro t num h
    have hc : c.isDigit = true := h c (by simp)
    have hstep : pdStep (some (t, num)) c = some (t, num ++ [c]) := by
      simp [pdStep, hc]
    rw [List.foldl_cons, hstep, ih t (num ++ [c]) fun d hd => h d (by simp [hd])]
    simp

theorem pdStep_unit (u : UnitK) (t : Nat) (num : List Char)
    (hne : num ≠ []) (hall : num.all Char.isDigit = true)
    (hv : digitsVal num < U64LIM) (ht : t + digitsVal num * unitFactor u < U64LIM) :
    pdStep (some (t, num)) (unitChar u) =
      some (t + digitsVal num * unitFactor u, []) := by
  have hp : parseU64 num = some (digitsVal num) := by simp [parseU64, hne, hall, hv]
  cases u with
  | h =>
    simp only [unitChar, unitFactor] at *
    simp [pdStep, hne, hp]
    exact Nat.mod_eq_of_lt (by omega)
  | m =>
    simp only [unitChar, unitFactor] at *
    simp [pdStep, hne, hp]
    exact Nat.mod_eq_of_lt (by omega)
  | s =>
    simp only [unitChar, unitFactor] at *
    simp [pdStep, hne, hp]
    exact Nat.mod_eq_of_lt (by omega)

theorem foldl_renderComps :
    ∀ (comps : List (Nat × UnitK)) (t : Nat),
      t + (comps.map fun p => p.1 * unitFactor p.2).sum < U64LIM →
      List.foldl pdStep (some (t, []))
          ((comps.map fun p => natChars p.1 ++ [unitChar p.2]).flatten) =
        some (t + (comps.map fun p => p.1 * unitFactor p.2).sum, []) := by
  intro comps
  induction comps with
  | nil => intro t _; simp
  | cons p rest ih =>
    intro t ht
    obtain ⟨v, u⟩ := p
    simp only [List.map_cons, List.flatten_cons, List.sum_cons] at *
    have hvlim : v < U64LIM := by
      have h1 := one_le_unitFactor u
      have h2 : v * 1 ≤ v * unitFactor u := Nat.mul_le_mul_left v h1
      omega
    have hstep1 : List.foldl pdStep (some (t, ([] : List Char))) (natChars v) =
        some (t, natChars v) := by
      have := foldl_pdStep_digits (natChars v) t [] fun c hc => (natChars_mem v c hc).1
      simpa using this
    have hall : (natChars v).all Char.isDigit = true := by
      rw [List.all_eq_true]
      intro c hc
      exact (natChars_mem v c hc).1
    have hstep2 : pdStep (some (t, natChars v)) (unitChar u) =
        some (t + v * unitFactor u, []) := by
      have h := pdStep_unit u t (natChars v) (natChars_ne_nil v) hall
        (by rw [natChars_digitsVal]; exact hvlim)
        (by rw [natChars_digitsVal]; omega)
      rwa [natChars_digitsVal] at h
    rw [List.foldl_append, List.foldl_append, hstep1]
    simp only [List.foldl_cons, List.foldl_nil, hstep2]
    rw [ih (t + v * unitFactor u) (by omega)]
    congr 2
    omega

theorem map_toLower_fixed :
    ∀ L : List Char, (∀ c ∈ L, c.toLower = c) → L.map Char.toLower = L := by
  intro L h
  induction L with
  | nil => rfl
  | cons c l ih =>
    simp only [List.map_cons, h c (by simp), List.cons.injEq, true_and]
    exact ih fun d hd => h d (by simp [hd])

theorem renderDur_toLower (comps : List (Nat × UnitK)) (bare : Option Nat) :
    (renderDur comps bare).map Char.toLower = renderDur comps bare := by
  apply map_toLower_fixed
  intro c hc
  simp only [renderDur, List.mem_append] at hc
  rcases hc with hc | hc
  · rw [List.mem_flatten] at hc
    obtain ⟨l, hl, hcl⟩ := hc
    rw [List.mem_map] at hl
    obtain ⟨p, _, hpl⟩ := hl
    subst hpl
    rcases List.mem_append.mp hcl with h1 | h1
    · exact (natChars_mem _ c h1).2
    · rw [List.mem_singleton] at h1
      subst h1
      exact unitChar_toLower p.2
  · cases bare with
    | none => simp at hc
    | some n => exact (natChars_mem n c hc).2

/-- C7: for every duration string combining hour, minute, and second
components in any order, optionally followed by a bare integer (interpreted as
seconds), `parse_duration` returns the sum of each component's value times its
unit factor (3600 for `h`, 60 for `m`, 1 for `s`), provided the total is
nonzero and fits in a `u64`. -/
theorem C7_duration_components_sum (comps : List (Nat × UnitK)) (bare : Option Nat)
    (hpos : 0 < durTotal comps bare) (hlim : durTotal comps bare < U64LIM) :
    parse_duration (renderDur comps bare) = some (durTotal comps bare) := by
  have hlow := renderDur_toLower comps bare
  cases bare with
  | none =>
    have hS : (comps.map fun p => p.1 * unitFactor p.2).sum = durTotal comps none := by
      simp [durTotal]
    have hfold := foldl_renderComps comps 0 (by omega)
    simp only [Nat.zero_add] at hfold
    simp only [renderDur, List.append_nil] at hlow
    have hne0 : (comps.map fun p => p.1 * unitFactor p.2).sum ≠ 0 := by omega
    simp only [parse_duration, pdRaw, renderDur, List.append_nil]
    rw [hlow, hfold]
    simp [hne0, hS]
    omega
  | some bv =>
    have hS : durTotal comps (some bv) =
        (comps.map fun p => p.1 * unitFactor p.2).sum + bv := by
      simp [durTotal]
    rw [hS] at hpos hlim
    have hfold := foldl_renderComps comps 0 (by omega)
    simp only [Nat.zero_add] at hfold
    have hdig := foldl_pdStep_digits (natChars bv)
      ((comps.map fun p => p.1 * unitFactor p.2).sum) []
      fun c hc => (natChars_mem bv c hc).1
    simp only [List.nil_append] at hdig
    simp only [renderDur] at hlow
    simp only [parse_duration, pdRaw, renderDur]
    rw [hlow, List.foldl_append, hfold, hdig]
    have hbv : parseU64 (natChars bv) = some bv := parseU64_natChars (by omega)
    have hne : (comps.map fun p => p.1 * unitFactor p.2).sum + bv ≠ 0 := by omega
    simp [natChars_ne_nil bv, hbv, Nat.mod_eq_of_lt hlim, hne, hS]

theorem C7_duration_components_sum_witness :
    parse_duration ("1h30m45s".toList) = some 5445 := by
  have e1 : renderDur [(1, UnitK.h), (30, UnitK.m), (45, UnitK.s)] none =
      "1h30m45s".toList := by decide
  have e2 : durTotal [(1, UnitK.h), (30, UnitK.m), (45, UnitK.s)] none = 5445 := by decide
  have h := C7_duration_components_sum [(1, UnitK.h), (30, UnitK.m), (45, UnitK.s)] none
    (by decide) (by decide)
  rw [e1, e2] at h
  exact h

theorem charToNat_ofNat_of_lt {m : Nat} (h : m < 55296) : (Char.ofNat m).toNat = m := by
  have hv : m.isValidChar := Or.inl h
  rw [Char.ofNat, dif_pos hv]
  simp [Char.ofNatAux, Char.toNat, UInt32.toNat]

theorem isDigit_iff (c : Char) : c.isDigit = true ↔ 48 ≤ c.toNat ∧ c.toNat ≤ 57 := by
  simp [Char.isDigit, Char.toNat, UInt32.le_def, BitVec.le_def]
  constructor
  · rintro ⟨h1, h2⟩; exact ⟨h1, h2⟩
  · rintro ⟨h1, h2⟩; exact ⟨h1, h2⟩

theorem toLower_eq (c : Char) :
    c.toLower = if 65 ≤ c.toNat ∧ c.toNat ≤ 90 then Char.ofNat (c.toNat + 32) else c := by
  rfl

theorem isDigit_toLower (c : Char) : c.toLower.isDigit = c.isDigit := by
  rw [toLower_eq]
  split
  · rename_i h
    have h1 : (Char.ofNat (c.toNat + 32)).toNat = c.toNat + 32 :=
      charToNat_ofNat_of_lt (by omega)
    have h2 : (Char.ofNat (c.toNat + 32)).isDigit = false := by
      rw [Bool.eq_false_iff]
      intro hd
      have := (isDigit_iff _).mp hd
      omega
    have h3 : c.isDigit = false := by
      rw [Bool.eq_false_iff]
      intro hd
      have := (isDigit_iff _).mp hd
      omega
    rw [h2, h3]
  · rfl

theorem toLower_toLower (c : Char) : c.toLower.toLower = c.toLower := by
  rw [toLower_eq c]
  split
  · rename_i h
    have h1 : (Char.ofNat (c.toNat + 32)).toNat = c.toNat + 32 :=
      charToNat_ofNat_of_lt (by omega)
    rw [toLower_eq, h1, if_neg (by omega)]
  · rw [toLower_eq, if_neg (by assumption)]

theorem pdStep_nondigit_zero {c : Char} (hc : c.isDigit = false) :
    pdStep (some (0, [])) c = some (0, []) := by
  simp only [pdStep, hc, Bool.false_eq_true, if_false, ne_eq, not_true_eq_false,
    reduceIte]
  split
  · rfl
  · split
    · rfl
    · split <;> rfl

theorem foldl_pdStep_nondigits :
    ∀ L : List Char, (∀ c ∈ L, c.isDigit = false) →
      List.foldl pdStep (some (0, [])) L = some (0, []) := by
  intro L
  induction L with
  | nil => intro _; rfl
  | cons c l ih =>
    intro h
    rw [List.foldl_cons, pdStep_nondigit_zero (h c (by simp))]
    exact ih fun d hd => h d (by simp [hd])

/-- C8: `parse_duration` fails on every string whose effective total
(`total_seconds` at the zero check, src/main.rs:98) is zero — in particular on
`"0s"` and on every string containing no ASCII digit. -/
theorem C8_zero_total_fails (s : List Char) :
    (pdRaw s = some 0 → parse_duration s = none) ∧
      ((∀ c ∈ s, c.isDigit = false) → parse_duration s = none) := by
  constructor
  · intro h
    simp [parse_duration, h]
  · intro h
    have hfold : List.foldl pdStep (some (0, [])) (s.map Char.toLower) = some (0, []) := by
      apply foldl_pdStep_nondigits
      intro c hc
      rw [List.mem_map] at hc
      obtain ⟨d, hd, hdc⟩ := hc
      subst hdc
      rw [isDigit_toLower]
      exact h d hd
    simp [parse_duration, pdRaw, hfold]

theorem C8_zero_total_fails_witness : parse_duration ("0s".toList) = none :=
  (C8_zero_total_fails "0s".toList).1 (by decide)

/-- A character `parse_duration`'s loop reacts to: an ASCII digit or one of
the unit letters `h`, `m`, `s`. All other characters are skipped. -/
def relevantChar (c : Char) : Bool :=
  c.isDigit || c = 'h' || c = 'm' || c = 's'

theorem pdStep_irrelevant {c : Char} (hc : relevantChar c = false) :
    ∀ st, pdStep st c = st := by
  intro st
  have hc' := hc
  simp only [relevantChar, Bool.or_eq_false_iff, decide_eq_false_iff_not] at hc'
  obtain ⟨⟨⟨h1, h2⟩, h3⟩, h4⟩ := hc'
  cases st with
  | none => rfl
  | some p => simp [pdStep, h1, h2, h3, h4]

theorem foldl_pdStep_filter :
    ∀ (M : List Char) (st : Option (Nat × List Char)),
      List.foldl pdStep st (M.filter relevantChar) = List.foldl pdStep st M := by
  intro M
  induction M with
  | nil => intro st; rfl
  | cons c l ih =>
    intro st
    by_cases hc : relevantChar c = true
    · rw [List.filter_cons_of_pos hc, List.foldl_cons, List.foldl_cons, ih]
    · rw [List.filter_cons_of_neg (by simp_all), List.foldl_cons,
        pdStep_irrelevant (Bool.eq_false_iff.mpr hc), ih]

/-- C10: `parse_duration` skips every character that is neither an ASCII
digit nor a unit letter, without rejecting the input and without resetting the
pending digit run (`"5x"` parses as 5 seconds, `"1x2s"` as 12 seconds;
dropping all skipped characters never changes the result), and — whenever no
digit run overflows a `u64`, i.e. the computed total is `some t` — parsing
fails exactly when that effective total `t` is zero. -/
theorem C10_irrelevant_chars_skipped :
    (parse_duration ("5x".toList) = some 5) ∧
      (parse_duration ("1x2s".toList) = some 12) ∧
      (∀ s : List Char,
        parse_duration ((s.map Char.toLower).filter relevantChar) = parse_duration s) ∧
      (∀ (s : List Char) (t : Nat), pdRaw s = some t →
        (t = 0 → parse_duration s = none) ∧ (t ≠ 0 → parse_duration s = some t)) := by
  refine ⟨by decide, by decide, ?_, ?_⟩
  · intro s
    have hfix : ((s.map Char.toLower).filter relevantChar).map Char.toLower =
        (s.map Char.toLower).filter relevantChar := by
      apply map_toLower_fixed
      intro c hc
      have hc2 : c ∈ s.map Char.toLower := List.mem_of_mem_filter hc
      rw [List.mem_map] at hc2
      obtain ⟨d, _, hdc⟩ := hc2
      subst hdc
      exact toLower_toLower d
    simp only [parse_duration, pdRaw, hfix, foldl_pdStep_filter]
  · intro s t h
    constructor
    · intro h0
      subst h0
      simp [parse_duration, h]
    · intro h0
      simp [parse_duration, h, h0]

theorem C10_irrelevant_chars_skipped_witness :
    parse_duration ("7m".toList) = some 420 :=
  (C10_irrelevant_chars_skipped.2.2.2 "7m".toList 420 (by decide)).2 (by decide)

/-- Does `pat` occur at the start of `s`? (`str::starts_with`). -/
def startsWithSeq : List Char → List Char → Bool
  | [], _ => true
  | _ :: _, [] => false
  | p :: ps, c :: cs => p = c && startsWithSeq ps cs

/-- Does `pat` occur anywhere in `s`? Model of `str::contains`. -/
def containsSeq (pat : List Char) : List Char → Bool
  | [] => startsWithSeq pat []
  | c :: cs => startsWithSeq pat (c :: cs) || containsSeq pat cs

/-- Remove every (non-overlapping, left-to-right) occurrence of the
two-character pattern `[a, b]`: model of `String::replace("ab", "")`. -/
def removePat2 (a b : Char) : List Char → List Char
  | [] => []
  | [c] => [c]
  | c :: d :: rest =>
    if c = a ∧ d = b then removePat2 a b rest
    else c :: removePat2 a b (d :: rest)

/-- Model of `str::trim`: strip whitespace from both ends. -/
def trimChars (s : List Char) : List Char :=
  ((s.dropWhile Char.isWhitespace).reverse.dropWhile Char.isWhitespace).reverse

/-- Split on `':'`, model of `str::split(':').collect::<Vec<_>>()`. -/
def splitColonAux (cur : List Char) : List Char → List (List Char)
  | [] => [cur.reverse]
  | c :: rest =>
    if c = ':' then cur.reverse :: splitColonAux [] rest
    else splitColonAux (c :: cur) rest

/-- Split a character list on `':'`. -/
def splitColon (s : List Char) : List (List Char) := splitColonAux [] s

/-- Model of `NaiveTime::from_hms_opt(h, m, 0)`: a wall-clock time of day as
an `(hour, minute)` pair, valid when `h < 24` and `m < 60`. -/
def fromHmsOpt (h m : Nat) : Option (Nat × Nat) :=
  if h < 24 ∧ m < 60 then some (h, m) else none

/-- Model of `parse_alarm_time` (src/main.rs:105-146). Lowercase the input; if
it contains `am` or `pm`, strip both markers, trim, split on `':'`, demand
exactly two numeric fields, reject hour 0 or hour > 12, then convert to
24-hour form (`12am → 0`, `h pm → h+12` for `h ≠ 12`); otherwise parse the
two fields directly as a 24-hour time. -/
def parse_alarm_time (s0 : List Char) : Option (Nat × Nat) :=
  let s := s0.map Char.toLower
  if containsSeq ['a', 'm'] s || containsSeq ['p', 'm'] s then
    let isPm := containsSeq ['p', 'm'] s
    let timePart := trimChars (removePat2 'p' 'm' (removePat2 'a' 'm' s))
    match splitColon timePart with
    | [p0, p1] =>
      match parseU32 p0, parseU32 p1 with
      | some hr, some minute =>
        if hr > 12 ∨ hr = 0 then none
        else
          fromHmsOpt
            (if isPm ∧ hr ≠ 12 then hr + 12 else if ¬ isPm ∧ hr = 12 then 0 else hr)
            minute
      | _, _ => none
    | _ => none
  else
    match splitColon s with
    | [p0, p1] =>
      match parseU32 p0, parseU32 p1 with
      | some hr, some minute => fromHmsOpt hr minute
      | _, _ => none
    | _ => none

example : parse_alarm_time "7:20am".toList = some (7, 20) := by decide
example : parse_alarm_time "7:20pm".toList = some (19, 20) := by decide
example : parse_alarm_time "23:45".toList = some (23, 45) := by decide
example : parse_alarm_time "12:00am".toList = some (0, 0) := by decide
example : parse_alarm_time "12:00PM".toList = some (12, 0) := by decide
example : parse_alarm_time "13:00pm".toList = none := by decide
example : parse_alarm_time "0:10am".toList = none := by decide

/-- Render minutes as exactly two decimal digits. -/
def twoDigits (m : Nat) : List Char := [digitChar (m / 10), digitChar (m % 10)]

/-- Render a 12-hour clock time string `h:mm` followed by `pm` or `am`. -/
def renderAmPm (h m : Nat) (pm : Bool) : List Char :=
  natChars h ++ ':' :: twoDigits m ++ (if pm then ['p', 'm'] else ['a', 'm'])

/-- C9: for every valid 12-hour time string `h:mm` with `am`/`pm` suffix,
`parse_alarm_time` converts to 24-hour form: `12:00am ↦ 00:00`,
`12:00pm ↦ 12:00`, `h:mm pm ↦ (h mod 12)+12 : mm` for `h ≠ 12`, and
`h:mm am ↦ h : mm` for `h ≠ 12`. -/
theorem C9_twelve_hour_conversion (hr m : Nat) (pm : Bool)
    (h1 : 1 ≤ hr) (h2 : hr ≤ 12) (hm : m ≤ 59) :
    parse_alarm_time (renderAmPm hr m pm) =
      some ((if pm then (if hr = 12 then 12 else hr % 12 + 12)
             else (if hr = 12 then 0 else hr)), m) := by
  have key : ∀ h, h < 13 → ∀ m, m < 60 → ∀ pm : Bool, 1 ≤ h →
      parse_alarm_time (renderAmPm h m pm) =
        some ((if pm then (if h = 12 then 12 else h % 12 + 12)
               else (if h = 12 then 0 else h)), m) := by decide
  exact key hr (by omega) m (by omega) pm h1

theorem C9_twelve_hour_conversion_witness :
    parse_alarm_time ("7:20pm".toList) = some (19, 20) := by
  have e : renderAmPm 7 20 true = "7:20pm".toList := by decide
  have h := C9_twelve_hour_conversion 7 20 true (by decide) (by decide) (by decide)
  rw [e] at h
  simpa using h

/-- Elapsed time of a monotonic baseline at instant `now`
(`start_time.elapsed()` in src/main.rs:217). The monotonic clock never runs
backwards, so `now` is never below the baseline. -/
def timerElapsed (baseline now : Nat) : Nat := now - baseline

/-- The countdown's remaining time as `run_timer_ui` computes it: the
triggered branch treats `elapsed ≥ duration` as completion (zero remaining,
src/main.rs:219), otherwise `remaining = duration - elapsed`
(src/main.rs:268). -/
def timerRemaining (duration baseline now : Nat) : Nat :=
  if duration ≤ timerElapsed baseline now then 0
  else duration - timerElapsed baseline now

/-- C3: for a countdown with target duration `d` and baseline `b`, the
remaining value at any instant `now ≥ b` equals `max 0 (d - (now - b))`, is
monotonically non-increasing as `now` advances, and is exactly zero at and
after the target instant `b + d`. -/
theorem C3_remaining_max_monotone (d b now : Nat) (hb : b ≤ now) :
    ((timerRemaining d b now : ℤ) = max 0 ((d : ℤ) - ((now : ℤ) - (b : ℤ)))) ∧
      (∀ now2, now ≤ now2 → timerRemaining d b now2 ≤ timerRemaining d b now) ∧
      (b + d ≤ now → timerRemaining d b now = 0) := by
  refine ⟨?_, ?_, ?_⟩
  · unfold timerRemaining timerElapsed
    split <;> push_cast <;> omega
  · intro now2 h2
    unfold timerRemaining timerElapsed
    split <;> split <;> omega
  · intro h3
    unfold timerRemaining timerElapsed
    split <;> omega

theorem C3_remaining_max_monotone_witness :
    ((timerRemaining 10 5 7 : ℤ) = max 0 ((10 : ℤ) - ((7 : ℤ) - (5 : ℤ)))) ∧
      timerRemaining 10 5 20 = 0 := by
  refine ⟨(C3_remaining_max_monotone 10 5 7 (by decide)).1, ?_⟩
  exact (C3_remaining_max_monotone 10 5 20 (by decide)).2.2 (by decide)

/-- Nanoseconds per day: what `chrono::Duration::days(1)` adds to a naive
local timestamp (src/main.rs:464). -/
def dayNs : Nat := 86400000000000

/-- Model of `run_alarm_ui`'s target resolution (src/main.rs:459-465) on a
naive local time axis in nanoseconds: `target = date(now) + T` (midnight of
the current day plus the requested time of day `T`), rolled forward one day
when `target ≤ now`. -/
def resolveAlarmTarget (now T : Nat) : Nat :=
  let target := now - now % dayNs + T
  if target ≤ now then target + dayNs else target

/-- C4: for a requested time-of-day `T` and construction instant `now`, the
resolved alarm target is `date(now)+T` when that is strictly later than
`now`, and `date(now)+T` plus exactly one day when `date(now)+T ≤ now`;
hence the resolved target is always at or after `now`. -/
theorem C4_alarm_target_resolution (now T : Nat) (_hT : T < dayNs) :
    (now < now - now % dayNs + T →
      resolveAlarmTarget now T = now - now % dayNs + T) ∧
      (now - now % dayNs + T ≤ now →
        resolveAlarmTarget now T = now - now % dayNs + T + dayNs) ∧
      now ≤ resolveAlarmTarget now T := by
  have hmod : now % dayNs < dayNs := Nat.mod_lt _ (by decide)
  have hmle : now % dayNs ≤ now := Nat.mod_le _ _
  refine ⟨?_, ?_, ?_⟩
  · intro h
    simp only [resolveAlarmTarget]
    rw [if_neg (by omega)]
  · intro h
    simp only [resolveAlarmTarget]
    rw [if_pos (by omega)]
  · simp only [resolveAlarmTarget]
    split <;> omega

theorem C4_alarm_target_resolution_witness :
    5000 ≤ resolveAlarmTarget 5000 200 ∧
      resolveAlarmTarget 5000 200 = 5000 - 5000 % dayNs + 200 + dayNs := by
  refine ⟨(C4_alarm_target_resolution 5000 200 (by decide)).2.2, ?_⟩
  exact (C4_alarm_target_resolution 5000 200 (by decide)).2.1 (by decide)

/-- Classification of a polled input event for the countdown/alarm loops:
`q` is the quit key, `ctrlC` the interrupt combination, `other` any other key
event, `noKey` a poll that timed out with no input. -/
inductive TKey
  | q
  | ctrlC
  | other
  | noKey
deriving DecidableEq

/-- The cancel predicate of src/main.rs:314 and src/main.rs:578:
`key.code == 'q' || (key.code == 'c' && CONTROL)`. -/
def isCancelKey : TKey → Bool
  | .q => true
  | .ctrlC => true
  | _ => false

/-- The observable actions of a countdown/alarm session, in the order the
loop performs them: rendering the in-progress frame, rendering the triggered
frame, ringing the bell (`play_bell`), sending the desktop notification
(`send_notification`). -/
inductive TAct
  | renderRunning
  | renderFinished
  | bell
  | notify
deriving DecidableEq

/-- How a countdown/alarm session left its loop: cancelled pre-trigger,
acknowledged post-trigger, still waiting for acknowledgement when the event
trace ran out, or still running when the event trace ran out. -/
inductive TExit
  | cancelled
  | acknowledged
  | waitingAck
  | ranOut
deriving DecidableEq

/-- Process exit status: both the cancel path and the acknowledged-completion
path fall through to `Ok(())`, exit code 0; a loop still running has not
exited. -/
def exitCode : TExit → Option Nat
  | .cancelled => some 0
  | .acknowledged => some 0
  | _ => none

/-- The post-trigger acknowledge-wait loop (src/main.rs:256-264 and
src/main.rs:519-527): poll repeatedly, reacting only to the cancel keys. -/
def ackLoop : List TKey → TExit
  | [] => .waitingAck
  | k :: rest => if isCancelKey k then .acknowledged else ackLoop rest

/-- `run_timer_ui`'s loop (src/main.rs:216-321) over a finite trace of polled
ticks `(elapsed, key)`: when `elapsed ≥ duration`, render the finished frame,
ring the bell, send the notification — each exactly once — and enter the
acknowledge-wait loop; otherwise render the running frame and break on a
cancel key. -/
def runTimerLoop (duration : Nat) : List (Nat × TKey) → List TAct × TExit
  | [] => ([], .ranOut)
  | (elapsed, k) :: rest =>
    if duration ≤ elapsed then
      ([.renderFinished, .bell, .notify], ackLoop (rest.map Prod.snd))
    else if isCancelKey k then
      ([.renderRunning], .cancelled)
    else
      let r := runTimerLoop duration rest
      (.renderRunning :: r.1, r.2)

/-- `run_alarm_ui`'s loop (src/main.rs:478-585) over a finite trace of polled
ticks `(now, key)`: when `now ≥ target`, render the alarm frame, ring the
bell, send the notification — each exactly once — and enter the
acknowledge-wait loop; otherwise render the pending frame and break on a
cancel key. -/
def runAlarmLoop (target : Nat) : List (Nat × TKey) → List TAct × TExit
  | [] => ([], .ranOut)
  | (now, k) :: rest =>
    if target ≤ now then
      ([.renderFinished, .bell, .notify], ackLoop (rest.map Prod.snd))
    else if isCancelKey k then
      ([.renderRunning], .cancelled)
    else
      let r := runAlarmLoop target rest
      (.renderRunning :: r.1, r.2)

/-- Number of occurrences of an action in a trace. -/
def countAct (a : TAct) (tr : List TAct) : Nat := (tr.filter fun x => x = a).length

theorem countAct_cons_ne {a b : TAct} (h : ¬ b = a) (tr : List TAct) :
    countAct a (b :: tr) = countAct a tr := by
  simp [countAct, h]

theorem countAct_replicate_running (a : TAct) (h : ¬ a = TAct.renderRunning) :
    ∀ (k : Nat) (tr : List TAct),
      countAct a (List.replicate k TAct.renderRunning ++ tr) = countAct a tr := by
  intro k
  induction k with
  | zero => intro tr; simp
  | succ n ih =>
    intro tr
    rw [List.replicate_succ, List.cons_append,
      countAct_cons_ne (fun he => h he.symm), ih]

theorem runTimerLoop_triggered_shape (d : Nat) :
    ∀ ticks : List (Nat × TKey),
      (runTimerLoop d ticks).2 = .acknowledged ∨ (runTimerLoop d ticks).2 = .waitingAck →
      ∃ k, (runTimerLoop d ticks).1 =
        List.replicate k TAct.renderRunning ++ [.renderFinished, .bell, .notify] := by
  intro ticks
  induction ticks with
  | nil => intro h; simp [runTimerLoop] at h
  | cons p rest ih =>
    obtain ⟨e, k⟩ := p
    intro h
    by_cases ht : d ≤ e
    · exact ⟨0, by simp [runTimerLoop, ht]⟩
    · by_cases hc : isCancelKey k = true
      · simp [runTimerLoop, ht, hc] at h
      · simp only [runTimerLoop, if_neg ht, hc, Bool.false_eq_true, if_false] at h ⊢
        obtain ⟨n, hn⟩ := ih h
        exact ⟨n + 1, by simp [hn, List.replicate_succ]⟩

theorem runAlarmLoop_triggered_shape (tgt : Nat) :
    ∀ ticks : List (Nat × TKey),
      (runAlarmLoop tgt ticks).2 = .acknowledged ∨ (runAlarmLoop tgt ticks).2 = .waitingAck →
      ∃ k, (runAlarmLoop tgt ticks).1 =
        List.replicate k TAct.renderRunning ++ [.renderFinished, .bell, .notify] := by
  intro ticks
  induction ticks with
  | nil => intro h; simp [runAlarmLoop] at h
  | cons p rest ih =>
    obtain ⟨e, k⟩ := p
    intro h
    by_cases ht : tgt ≤ e
    · exact ⟨0, by simp [runAlarmLoop, ht]⟩
    · by_cases hc : isCancelKey k = true
      · simp [runAlarmLoop, ht, hc] at h
      · simp only [runAlarmLoop, if_neg ht, hc, Bool.false_eq_true, if_false] at h ⊢
        obtain ⟨n, hn⟩ := ih h
        exact ⟨n + 1, by simp [hn, List.replicate_succ]⟩

/-- C1: for every countdown or alarm session whose trigger condition becomes
true, the completion side effects (bell and desktop notification) occur
exactly once over the whole trace, after the triggered frame is rendered and
with nothing after them, however many polling iterations follow the
trigger. -/
theorem C1_completion_side_effects_once :
    (∀ (d : Nat) (ticks : List (Nat × TKey)),
      (runTimerLoop d ticks).2 = .acknowledged ∨ (runTimerLoop d ticks).2 = .waitingAck →
      countAct .bell (runTimerLoop d ticks).1 = 1 ∧
        countAct .notify (runTimerLoop d ticks).1 = 1 ∧
        ∃ k, (runTimerLoop d ticks).1 =
          List.replicate k TAct.renderRunning ++ [.renderFinished, .bell, .notify]) ∧
      (∀ (tgt : Nat) (ticks : List (Nat × TKey)),
        (runAlarmLoop tgt ticks).2 = .acknowledged ∨
            (runAlarmLoop tgt ticks).2 = .waitingAck →
        countAct .bell (runAlarmLoop tgt ticks).1 = 1 ∧
          countAct .notify (runAlarmLoop tgt ticks).1 = 1 ∧
          ∃ k, (runAlarmLoop tgt ticks).1 =
            List.replicate k TAct.renderRunning ++ [.renderFinished, .bell, .notify]) := by
  constructor
  · intro d ticks h
    obtain ⟨n, hn⟩ := runTimerLoop_triggered_shape d ticks h
    rw [hn, countAct_replicate_running _ (by simp) n,
      countAct_replicate_running _ (by simp) n]
    exact ⟨by decide, by decide, n, rfl⟩
  · intro tgt ticks h
    obtain ⟨n, hn⟩ := runAlarmLoop_triggered_shape tgt ticks h
    rw [hn, countAct_replicate_running _ (by simp) n,
      countAct_replicate_running _ (by simp) n]
    exact ⟨by decide, by decide, n, rfl⟩

theorem C1_completion_side_effects_once_witness :
    countAct .bell (runTimerLoop 3 [(1, TKey.noKey), (3, TKey.noKey), (9, TKey.q)]).1 = 1 ∧
      countAct .notify (runTimerLoop 3 [(1, TKey.noKey), (3, TKey.noKey), (9, TKey.q)]).1 = 1 := by
  have h := C1_completion_side_effects_once.1 3 [(1, TKey.noKey), (3, TKey.noKey), (9, TKey.q)]
    (by decide)
  exact ⟨h.1, h.2.1⟩

theorem runTimerLoop_cancelled (d : Nat) :
    ∀ (pre : List (Nat × TKey)) (e : Nat) (k : TKey) (rest : List (Nat × TKey)),
      (∀ p ∈ pre, p.1 < d) → e < d → isCancelKey k = true →
      (runTimerLoop d (pre ++ (e, k) :: rest)).2 = .cancelled ∧
        ∃ n, (runTimerLoop d (pre ++ (e, k) :: rest)).1 =
          List.replicate n TAct.renderRunning := by
  intro pre
  induction pre with
  | nil =>
    intro e k rest _ he hk
    refine ⟨by simp [runTimerLoop, Nat.not_le_of_lt he, hk], 1, ?_⟩
    simp [runTimerLoop, Nat.not_le_of_lt he, hk, List.replicate_succ]
  | cons p pre' ih =>
    intro e k rest hpre he hk
    obtain ⟨e0, k0⟩ := p
    have he0 : e0 < d := hpre (e0, k0) (by simp)
    have hpre' : ∀ p ∈ pre', p.1 < d := fun p hp => hpre p (by simp [hp])
    by_cases hc : isCancelKey k0 = true
    · refine ⟨by simp [runTimerLoop, Nat.not_le_of_lt he0, hc], 1, ?_⟩
      simp [runTimerLoop, Nat.not_le_of_lt he0, hc, List.replicate_succ]
    · obtain ⟨h2, n, hn⟩ := ih e k rest hpre' he hk
      refine ⟨?_, n + 1, ?_⟩
      · simp only [List.cons_append, runTimerLoop, if_neg (Nat.not_le_of_lt he0), hc,
          Bool.false_eq_true, if_false]
        exact h2
      · simp only [List.cons_append, runTimerLoop, if_neg (Nat.not_le_of_lt he0), hc,
          Bool.false_eq_true, if_false, List.replicate_succ]
        simp [hn]

theorem runAlarmLoop_cancelled (tgt : Nat) :
    ∀ (pre : List (Nat × TKey)) (e : Nat) (k : TKey) (rest : List (Nat × TKey)),
      (∀ p ∈ pre, p.1 < tgt) → e < tgt → isCancelKey k = true →
      (runAlarmLoop tgt (pre ++ (e, k) :: rest)).2 = .cancelled ∧
        ∃ n, (runAlarmLoop tgt (pre ++ (e, k) :: rest)).1 =
          List.replicate n TAct.renderRunning := by
  intro pre
  induction pre with
  | nil =>
    intro e k rest _ he hk
    refine ⟨by simp [runAlarmLoop, Nat.not_le_of_lt he, hk], 1, ?_⟩
    simp [runAlarmLoop, Nat.not_le_of_lt he, hk, List.replicate_succ]
  | cons p pre' ih =>
    intro e k rest hpre he hk
    obtain ⟨e0, k0⟩ := p
    have he0 : e0 < tgt := hpre (e0, k0) (by simp)
    have hpre' : ∀ p ∈ pre', p.1 < tgt := fun p hp => hpre p (by simp [hp])
    by_cases hc : isCancelKey k0 = true
    · refine ⟨by simp [runAlarmLoop, Nat.not_le_of_lt he0, hc], 1, ?_⟩
      simp [runAlarmLoop, Nat.not_le_of_lt he0, hc, List.replicate_succ]
    · obtain ⟨h2, n, hn⟩ := ih e k rest hpre' he hk
      refine ⟨?_, n + 1, ?_⟩
      · simp only [List.cons_append, runAlarmLoop, if_neg (Nat.not_le_of_lt he0), hc,
          Bool.false_eq_true, if_false]
        exact h2
      · simp only [List.cons_append, runAlarmLoop, if_neg (Nat.not_le_of_lt he0), hc,
          Bool.false_eq_true, if_false, List.replicate_succ]
        simp [hn]

/-- C2: for every countdown or alarm session, if a cancel signal (`'q'` or
Ctrl-C) is received at a bounded input wait before the trigger condition
becomes true, the loop exits cancelled without ever ringing the bell or
sending the notification, and the process completes with exit status 0. -/
theorem C2_cancel_no_side_effects :
    (∀ (d : Nat) (pre : List (Nat × TKey)) (e : Nat) (k : TKey) (rest : List (Nat × TKey)),
      (∀ p ∈ pre, p.1 < d) → e < d → isCancelKey k = true →
      (runTimerLoop d (pre ++ (e, k) :: rest)).2 = .cancelled ∧
        countAct .bell (runTimerLoop d (pre ++ (e, k) :: rest)).1 = 0 ∧
        countAct .notify (runTimerLoop d (pre ++ (e, k) :: rest)).1 = 0 ∧
        exitCode (runTimerLoop d (pre ++ (e, k) :: rest)).2 = some 0) ∧
      (∀ (tgt : Nat) (pre : List (Nat × TKey)) (e : Nat) (k : TKey)
          (rest : List (Nat × TKey)),
        (∀ p ∈ pre, p.1 < tgt) → e < tgt → isCancelKey k = true →
        (runAlarmLoop tgt (pre ++ (e, k) :: rest)).2 = .cancelled ∧
          countAct .bell (runAlarmLoop tgt (pre ++ (e, k) :: rest)).1 = 0 ∧
          countAct .notify (runAlarmLoop tgt (pre ++ (e, k) :: rest)).1 = 0 ∧
          exitCode (runAlarmLoop tgt (pre ++ (e, k) :: rest)).2 = some 0) := by
  constructor
  · intro d pre e k rest hpre he hk
    obtain ⟨h2, n, hn⟩ := runTimerLoop_cancelled d pre e k rest hpre he hk
    have hb : countAct .bell (runTimerLoop d (pre ++ (e, k) :: rest)).1 = 0 := by
      rw [hn]
      have := countAct_replicate_running .bell (by simp) n []
      simpa using this
    have hno : countAct .notify (runTimerLoop d (pre ++ (e, k) :: rest)).1 = 0 := by
      rw [hn]
      have := countAct_replicate_running .notify (by simp) n []
      simpa using this
    exact ⟨h2, hb, hno, by rw [h2]; rfl⟩
  · intro tgt pre e k rest hpre he hk
    obtain ⟨h2, n, hn⟩ := runAlarmLoop_cancelled tgt pre e k rest hpre he hk
    have hb : countAct .bell (runAlarmLoop tgt (pre ++ (e, k) :: rest)).1 = 0 := by
      rw [hn]
      have := countAct_replicate_running .bell (by simp) n []
      simpa using this
    have hno : countAct .notify (runAlarmLoop tgt (pre ++ (e, k) :: rest)).1 = 0 := by
      rw [hn]
      have := countAct_replicate_running .notify (by simp) n []
      simpa using this
    exact ⟨h2, hb, hno, by rw [h2]; rfl⟩

theorem C2_cancel_no_side_effects_witness :
    (runTimerLoop 5 ([(0, TKey.noKey)] ++ (1, TKey.q) :: [])).2 = .cancelled ∧
      countAct .bell (runTimerLoop 5 ([(0, TKey.noKey)] ++ (1, TKey.q) :: [])).1 = 0 ∧
      countAct .notify (runTimerLoop 5 ([(0, TKey.noKey)] ++ (1, TKey.q) :: [])).1 = 0 ∧
      exitCode (runTimerLoop 5 ([(0, TKey.noKey)] ++ (1, TKey.q) :: [])).2 = some 0 :=
  C2_cancel_no_side_effects.1 5 [(0, TKey.noKey)] 1 TKey.q []
    (by decide) (by decide) (by decide)

/-- Classification of a polled input event for the stopwatch loop
(src/main.rs:388-414): `'s'` stops, `'q'` and Ctrl-C background, anything
else (or no input) continues. -/
inductive SwKey
  | s
  | q
  | ctrlC
  | other
  | noKey
deriving DecidableEq

/-- The messages the stopwatch paths print after leaving the display. -/
inductive SwMsg
  | stoppedHeader
  | finalTime (elapsed : Nat)
  | stillRunning
  | stopHint
deriving DecidableEq

/-- How a stopwatch session ended: explicitly stopped with a final elapsed
value, backgrounded (quit but kept running), or the event trace ran out with
the loop still going. -/
inductive SwOutcome
  | stopped (finalElapsed : Nat)
  | backgrounded
  | ranOut
deriving DecidableEq

/-- Observable result of a stopwatch invocation: the outcome, the messages
printed after the display is closed, and the persisted record left on disk
(`None` means the file was removed, or the loop is still inside the
display). -/
structure SwResult where
  outcome : SwOutcome
  prints : List SwMsg
  fileAfter : Option Nat
deriving DecidableEq

/-- `run_stopwatch_ui`'s event loop (src/main.rs:348-435) over a finite trace
of polled ticks `(elapsed, key)`. `'s'` computes the final elapsed time,
leaves the display, prints the summary and deletes the persisted record
(src/main.rs:389-407); `'q'` or Ctrl-C leaves the display, prints the
still-running note and retains the record (src/main.rs:408-413 and
src/main.rs:422-435); any other event continues the loop. -/
def runStopwatchLoop (record : Nat) : List (Nat × SwKey) → SwResult
  | [] => ⟨.ranOut, [], some record⟩
  | (elapsed, k) :: rest =>
    match k with
    | .s => ⟨.stopped elapsed, [.stoppedHeader, .finalTime elapsed], none⟩
    | .q => ⟨.backgrounded, [.stillRunning, .stopHint], some record⟩
    | .ctrlC => ⟨.backgrounded, [.stillRunning, .stopHint], some record⟩
    | _ => runStopwatchLoop record rest

/-- `run_stopwatch_ui` (src/main.rs:335-436): capture the monotonic baseline,
persist its representation (src/main.rs:342-346), then run the event loop. -/
def run_stopwatch_ui (baseline : Nat) (ticks : List (Nat × SwKey)) : SwResult :=
  runStopwatchLoop baseline ticks

/-- C6: in a running stopwatch session the cancel step is a ternary control
signal: `'s'` (stop) yields the final elapsed time of that tick, prints the
summary, and deletes the persisted record; `'q'` or Ctrl-C
(quit-but-keep-running) prints the still-running note and retains the
persisted record for a later invocation; every other tick continues. -/
theorem C6_stopwatch_ternary_control :
    ∀ (b : Nat) (pre : List (Nat × SwKey)) (e : Nat) (k : SwKey)
      (rest : List (Nat × SwKey)),
      (∀ p ∈ pre, p.2 = SwKey.other ∨ p.2 = SwKey.noKey) →
      (k = SwKey.s →
        run_stopwatch_ui b (pre ++ (e, k) :: rest) =
          ⟨.stopped e, [.stoppedHeader, .finalTime e], none⟩) ∧
        ((k = SwKey.q ∨ k = SwKey.ctrlC) →
          run_stopwatch_ui b (pre ++ (e, k) :: rest) =
            ⟨.backgrounded, [.stillRunning, .stopHint], some b⟩) := by
  intro b pre
  induction pre with
  | nil =>
    intro e k rest _
    constructor
    · rintro rfl
      rfl
    · rintro (rfl | rfl) <;> rfl
  | cons p pre' ih =>
    intro e k rest hpre
    obtain ⟨e0, k0⟩ := p
    have hk0 : k0 = SwKey.other ∨ k0 = SwKey.noKey := hpre (e0, k0) (by simp)
    have hpre' : ∀ p ∈ pre', p.2 = SwKey.other ∨ p.2 = SwKey.noKey :=
      fun p hp => hpre p (by simp [hp])
    have hstep : run_stopwatch_ui b (((e0, k0) :: pre') ++ (e, k) :: rest) =
        run_stopwatch_ui b (pre' ++ (e, k) :: rest) := by
      rcases hk0 with rfl | rfl <;> rfl
    rw [hstep]
    exact ih e k rest hpre'

theorem C6_stopwatch_ternary_control_witness :
    run_stopwatch_ui 42 ([(2, SwKey.noKey)] ++ (7, SwKey.s) :: []) =
      ⟨.stopped 7, [.stoppedHeader, .finalTime 7], none⟩ :=
  (C6_stopwatch_ternary_control 42 [(2, SwKey.noKey)] 7 SwKey.s []
    (by decide)).1 rfl

/-- The messages `show_stopwatch_time` can print. -/
inductive StopMsg
  | errNoStopwatch
  | startHint
  | isRunningNote
  | liveHint
deriving DecidableEq

/-- Observable result of `clockeroo stopwatch stop`: the elapsed value it
reports (if any), the messages printed, and the persisted record left on
disk. -/
structure StopQuery where
  reported : Option Nat
  prints : List StopMsg
  fileAfter : Option Nat
deriving DecidableEq

/-- `show_stopwatch_time` (src/main.rs:438-456): with no persisted record it
reports the no-stopwatch error and start hint; with a record present it
prints a presence-only note plus a live hint and removes the record. It never
reads a clock and never parses the record's contents, so no elapsed value is
computed or reported on either path. -/
def show_stopwatch_time (file : Option Nat) : StopQuery :=
  match file with
  | none => ⟨none, [.errNoStopwatch, .startHint], none⟩
  | some _ => ⟨none, [.isRunningNote, .liveHint], none⟩

/-- C5 counterexample: a stopwatch started at instant 0, backgrounded, and
queried via `stopwatch stop` at instant 5 would have elapsed 5 under the
hypothetical continuously running first invocation, but the second invocation
reports no elapsed value at all — its output is independent of the persisted
baseline, so no reported value consistent with the original start instant
exists. -/
theorem C5_counterexample :
    (show_stopwatch_time (run_stopwatch_ui 0 [(3, SwKey.q)]).fileAfter).reported
      ≠ some 5 := by decide

/-- C5 amended: a second invocation that queries a persisted stopwatch record
does not reconstruct any elapsed time: for every persisted baseline it
reports no elapsed value, prints only the presence note and live hint, and
deletes the record. -/
theorem C5_amended_presence_only (r : Nat) :
    (show_stopwatch_time (some r)).reported = none ∧
      (show_stopwatch_time (some r)).prints = [.isRunningNote, .liveHint] ∧
      (show_stopwatch_time (some r)).fileAfter = none :=
  ⟨rfl, rfl, rfl⟩

end Clockeroo
